import Mathlib

/-!
Verification of the dataloader-factory core (src/index.ts) via a shallow
embedding. JavaScript Map objects are modelled as insertion-ordered
association lists, fetch functions as pure Lean functions, and promises as
Except values. The external dataloader package (the batch executor) and the
txstate-utils helpers (stringify, unique) are modelled from the spec where
their behavior decides a property; everything else is translated from the
source. The stringify serializer is abstracted as a cacheKeyFn parameter
(ckf), matching the code, which routes every key through
config.options.cacheKeyFn (defaulted to stringify).
-/

set_option autoImplicit false

namespace DLF

universe u v w

variable {κ : Type u} {V : Type v}
variable {K : Type u} {R : Type v} {F : Type w}

/-- JavaScript Map lookup (Map.prototype.get): first entry with the key. -/
def mapGet [DecidableEq κ] : List (κ × V) → κ → Option V
  | [], _ => none
  | (k, w) :: rest, s => if k = s then some w else mapGet rest s

/-- JavaScript Map insertion (Map.prototype.set): overwrite in place keeping
the position of an existing key, otherwise append at the end. -/
def mapSet [DecidableEq κ] : List (κ × V) → κ → V → List (κ × V)
  | [], s, w => [(s, w)]
  | (k, w0) :: rest, s, w => if k = s then (s, w) :: rest else (k, w0) :: mapSet rest s w

/-- Option fallback: first operand when present, otherwise the second. -/
def optOr : Option V → Option V → Option V
  | some w, _ => some w
  | none, o => o

/-- Translated from src/index.ts lines 54 to 58 (PrimaryKeyLoader.init): the
reduce that builds a Map from stringified extracted id to fetched row. A later
row with the same stringified id overwrites an earlier one (Map.set). -/
def pkKeyed (ckf : K → String) (extractId : R → K) (items : List R) : List (String × R) :=
  items.foldl (fun keyed item => mapSet keyed (ckf (extractId item)) item) []

/-- Translated from src/index.ts lines 47 to 59 (PrimaryKeyLoader.init): the
batch function handed to the external DataLoader. It fetches the batch ids,
keys the rows by stringified extracted id, and answers each slot by lookup of the
stringified requested id. -/
def pkBatchFn (ckf : K → String) (extractId : R → K) (fetch : List K → List R)
    (ids : List K) : List (Option R) :=
  let items := fetch ids
  (ids.map ckf).map (fun s => mapGet (pkKeyed ckf extractId items) s)

/-- Modelled from the spec: the external Batch Executor (dataloader package)
dedupes the load calls of one scheduling turn by cache key, keeping the first
key object per distinct stringified form; the batch function is invoked once
with the distinct keys. -/
def dedupLoads (ckf : K → String) : List K → List K
  | [] => []
  | k :: rest => k :: dedupLoads ckf (rest.filter (fun k2 => decide (ckf k2 ≠ ckf k)))
termination_by l => l.length
decreasing_by
  simp only [List.length_cons]
  exact Nat.lt_succ_of_le (List.length_filter_le _ _)

/-- Modelled from the spec: one scheduling turn of a PrimaryKeyLoader executor.
The executor coalesces every load call of the turn, invokes the batch function
exactly once with the distinct keys (the first component records the argument
list of every fetch invocation), and resolves each load call with the slot
belonging to its stringified key. -/
def pkRunTick (ckf : K → String) (extractId : R → K) (fetch : List K → List R)
    (loads : List K) : List (List K) × List (Option R) :=
  let ids := dedupLoads ckf loads
  let results := pkBatchFn ckf extractId fetch ids
  ([ids], loads.map (fun k => (mapGet ((ids.map ckf).zip results) (ckf k)).getD none))

/-- Join key and row pair returned by a ManyJoinedLoader fetch, from
src/index.ts lines 70 to 73. -/
structure ManyJoinedType (K : Type u) (R : Type v) where
  key : K
  value : R
deriving DecidableEq, Repr

/-- Translated from src/index.ts lines 377 to 380: append an item to the
bucket of the given string key, creating the bucket when absent. -/
def pushRecord (record : List (String × List R)) (key : String) (item : R) :
    List (String × List R) :=
  mapSet record key (((mapGet record key).getD []) ++ [item])

/-- Translated from src/index.ts lines 111 to 114 (BaseManyLoader
getDataLoader): the dedupekeys Map built by setting each requested key under
its stringified form; a duplicate stringified form keeps the first position
and the last key object. -/
def dedupekeys (ckf : K → String) (keys : List K) : List (String × K) :=
  keys.foldl (fun m k => mapSet m (ckf k) k) []

/-- Translated from src/index.ts lines 152 to 160 and 233 to 241 (the matchKey
groupItems closure of OneToManyLoader and ManyToManyLoader): every fetched row
is tested against every deduped requested key and pushed into the bucket of
each key it matches. -/
def groupByMatchKey (ckf : K → String) (matchKey : K → R → Bool)
    (items : List R) (dedup : List K) : List (String × List R) :=
  items.foldl
    (fun ret item =>
      dedup.foldl
        (fun ret2 key => if matchKey key item then pushRecord ret2 (ckf key) item else ret2)
        ret)
    []

/-- Translated from src/index.ts lines 167 to 173 (the extractKey groupItems
closure of OneToManyLoader): every fetched row is pushed into the bucket of
its extracted key. -/
def oneToManyGroupExtract (ckf : K → String) (extractKey : R → K)
    (items : List R) (_dedup : List K) : List (String × List R) :=
  items.foldl (fun ret item => pushRecord ret (ckf (extractKey item)) item) []

/-- Translated from src/index.ts lines 249 to 255 (the extractKeys groupItems
closure of ManyToManyLoader): every fetched row is pushed into the bucket of
each of its extracted keys. -/
def manyToManyGroupKeys (ckf : K → String) (extractKeys : R → List K)
    (items : List R) (_dedup : List K) : List (String × List R) :=
  items.foldl
    (fun ret item =>
      (extractKeys item).foldl (fun ret2 key => pushRecord ret2 (ckf key) item) ret)
    []

/-- Translated from src/index.ts lines 202 to 208 (ManyJoinedLoader
groupItems): each fetched pair contributes its value to the bucket of its
stringified join key. -/
def manyJoinedGroupItems (ckf : K → String)
    (items : List (ManyJoinedType K R)) (_dedup : List K) : List (String × List R) :=
  items.foldl (fun ret p => pushRecord ret (ckf p.key) p.value) []

/-- Translated from src/index.ts lines 177 to 187 (OneToManyLoader
constructor): the filterItems closure. Filtering happens only when both
keysFromFilter and extractKey are configured, and only when the filter
produces a nonempty key set. -/
def oneToManyFilterItems (ckf : K → String) (keysFromFilter : Option (F → List K))
    (extractKey : Option (R → K)) (filters : F) (items : List R) : List R :=
  match keysFromFilter, extractKey with
  | some kff, some ek =>
    let keys := (kff filters).map ckf
    if keys.isEmpty then items
    else items.filter (fun itm => decide (ckf (ek itm) ∈ keys))
  | _, _ => items

/-- Translated from src/index.ts lines 259 to 269 (ManyToManyLoader
constructor): the filterItems closure. Filtering happens only when both
keysFromFilter and extractKeys are configured, and only when the filter
produces a nonempty key set; a row survives when any of its keys is in the
set. -/
def manyToManyFilterItems (ckf : K → String) (keysFromFilter : Option (F → List K))
    (extractKeys : Option (R → List K)) (filters : F) (items : List R) : List R :=
  match keysFromFilter, extractKeys with
  | some kff, some eks =>
    let keys := (kff filters).map ckf
    if keys.isEmpty then items
    else items.filter (fun itm => (eks itm).any (fun k2 => decide (ckf k2 ∈ keys)))
  | _, _ => items

/-- Translated from src/index.ts lines 210 to 215 (ManyJoinedLoader
filterItems): a pair survives when its join key is in the nonempty
keysFromFilter set; an absent keysFromFilter or an empty key set keeps
everything. -/
def manyJoinedFilterItems (ckf : K → String) (keysFromFilter : Option (F → List K))
    (filters : F) (items : List (ManyJoinedType K R)) : List (ManyJoinedType K R) :=
  match keysFromFilter with
  | none => items
  | some kff =>
    let keys := (kff filters).map ckf
    if keys.isEmpty then items
    else items.filter (fun itm => decide (ckf itm.key ∈ keys))

/-- Result of one many-loader batch: the argument handed to fetch, the rows
surviving filterItems (these are also the rows handed to priming), and the
per-requested-key result arrays. -/
structure ManyBatchResult (K : Type u) (R : Type v) (A : Type w) where
  fetchArg : List K
  survivors : List A
  results : List (List R)

/-- Translated from src/index.ts lines 109 to 125 (BaseManyLoader
getDataLoader): the batch function shared by all *-to-many loaders. Requested
keys are deduped by stringified form, the deduped keys are fetched once, the
fetched rows pass filterItems, the survivors are grouped, and every original
requested key (duplicates included) receives its bucket or the empty array. -/
def manyBatchFn {A : Type w} (ckf : K → String)
    (filterItems : List A → List A)
    (groupItems : List A → List K → List (String × List R))
    (fetch : List K → List A) (keys : List K) : ManyBatchResult K R A :=
  let dk := dedupekeys ckf keys
  let fetchArg := dk.map (fun p => p.2)
  let survivors := filterItems (fetch fetchArg)
  let grouped := groupItems survivors fetchArg
  { fetchArg := fetchArg
    survivors := survivors
    results := (keys.map ckf).map (fun s => (mapGet grouped s).getD []) }

/-- Translated from src/index.ts lines 149 to 176 (OneToManyLoader
constructor): matchKey is examined first; extractKey is used only when
matchKey is absent; when neither is present construction throws. The returned
value is the groupItems closure the constructor installs. -/
def oneToManyCtor (ckf : K → String) (matchKey : Option (K → R → Bool))
    (extractKey : Option (R → K)) :
    Except String (List R → List K → List (String × List R)) :=
  match matchKey with
  | some mk => .ok (groupByMatchKey ckf mk)
  | none =>
    match extractKey with
    | some ek => .ok (oneToManyGroupExtract ckf ek)
    | none => .error "Tried to create a one-to-many loader without either extractKey or matchKey defined. One of the two is required."

/-- Translated from src/index.ts lines 230 to 258 (ManyToManyLoader
constructor): matchKey is examined first; extractKeys is used only when
matchKey is absent; when neither is present construction throws. -/
def manyToManyCtor (ckf : K → String) (matchKey : Option (K → R → Bool))
    (extractKeys : Option (R → List K)) :
    Except String (List R → List K → List (String × List R)) :=
  match matchKey with
  | some mk => .ok (groupByMatchKey ckf mk)
  | none =>
    match extractKeys with
    | some eks => .ok (manyToManyGroupKeys ckf eks)
    | none => .error "Tried to create a many-to-many loader without either extractKeys or matchKey defined. One of the two is required."

/-- Translated from src/index.ts lines 344 to 357 (BestMatchLoader.init): the
nested loop that keeps, per requested key, the best scoring row seen so far.
Only a score equal to zero is skipped; a nonzero score (negative included)
participates, and an existing entry is replaced only by a strictly greater
score. -/
def bestMatchKeyed [DecidableEq K] (scoreMatch : K → R → Int)
    (items : List R) (keys : List K) : List (K × (Int × R)) :=
  items.foldl
    (fun keyed item =>
      keys.foldl
        (fun keyed2 key =>
          let score := scoreMatch key item
          if score = 0 then keyed2
          else
            match mapGet keyed2 key with
            | none => mapSet keyed2 key (score, item)
            | some sr => if sr.1 < score then mapSet keyed2 key (score, item) else keyed2)
        keyed)
    []

/-- Translated from src/index.ts lines 342 to 361 (BestMatchLoader.init): the
batch function fetches once with all requested keys and answers each key with
its best scoring row, or undefined when it has no entry. -/
def bestMatchBatch [DecidableEq K] (scoreMatch : K → R → Int)
    (fetch : List K → List R) (keys : List K) : List (Option R) :=
  let items := fetch keys
  keys.map (fun k => (mapGet (bestMatchKeyed scoreMatch items keys) k).map (fun sr => sr.2))

/-- Single-key view of the BestMatchLoader update: what one fetched item does
to the running best entry of one fixed key (the body of the nested loop of
BestMatchLoader.init restricted to that key). -/
def bestStep (scoreMatch : K → R → Int) (k : K) : Option (Int × R) → R → Option (Int × R)
  | none, item => if scoreMatch k item = 0 then none else some (scoreMatch k item, item)
  | some sr, item =>
    if scoreMatch k item = 0 then some sr
    else if sr.1 < scoreMatch k item then some (scoreMatch k item, item) else some sr

/-- Single-key view of the whole BestMatchLoader scan: fold bestStep over the
fetched items in order. -/
def bestOf (scoreMatch : K → R → Int) (k : K) (items : List R) : Option (Int × R) :=
  items.foldl (bestStep scoreMatch k) none

/-- JavaScript value universe, large enough for the truthiness cases the
default id extractor distinguishes. -/
inductive JSVal : Type
  | undef
  | null
  | bool (b : Bool)
  | num (n : Int)
  | str (s : String)
deriving DecidableEq, Repr

/-- JavaScript truthiness on the modelled values: undefined, null, false, 0
and the empty string are falsy, everything else is truthy. -/
def truthy : JSVal → Bool
  | .undef => false
  | .null => false
  | .bool b => b
  | .num n => decide (n ≠ 0)
  | .str s => decide (s ≠ "")

/-- A JavaScript row object: property list; reading an absent property yields
undefined. -/
def JRow : Type := List (String × JSVal)

/-- Property access on a modelled row object. -/
def prop (r : JRow) (p : String) : JSVal :=
  (mapGet r p).getD JSVal.undef

/-- Translated from src/index.ts lines 373 to 375: the default id extractor
item.id or item._id, where the JavaScript or-operator returns the left operand
exactly when it is truthy. -/
def defaultId (item : JRow) : JSVal :=
  if truthy (prop item "id") then prop item "id" else prop item "_id"

/-- Configuration form of an id accessor: either a function or a property
name, as allowed by the MatchingKeyof union in the config interfaces. -/
inductive ExtractSpec : Type
  | fn (f : JRow → JSVal)
  | propName (p : String)

/-- Translated from src/index.ts lines 30 to 37 (PrimaryKeyLoader constructor)
and lines 287 to 295 (ParentDocumentLoader constructor): an absent accessor
falls back to defaultId, a function is used as is, and a property name becomes
a property read. -/
def resolveIdAccessor : Option ExtractSpec → (JRow → JSVal)
  | none => defaultId
  | some (.fn f) => f
  | some (.propName p) => fun itm => prop itm p

/-- Factory session state for the *-to-many loaders: the Map from loader (by
identity, modelled as a numeric id) to its Map from filterstring to executor;
executors are identified by the order of their creation, so distinct executor
ids mean distinct DataLoader instances with distinct caches. -/
structure FactoryState where
  loaders : List (Nat × List (String × Nat))
  nextId : Nat
deriving DecidableEq, Repr

/-- A fresh factory session holds no executors. -/
def FactoryState.empty : FactoryState := ⟨[], 0⟩

/-- Translated from src/index.ts lines 394 to 401 (DataLoaderFactory.get) and
lines 102 to 136 (BaseManyLoader.getDataLoader): the loader cache Map is
created on first use, and the storage object of a stringified filter is
reused when present, otherwise freshly created and memoized. -/
def factoryGetMany (s : FactoryState) (lid : Nat) (fs : String) : Nat × FactoryState :=
  let lmap := (mapGet s.loaders lid).getD []
  match mapGet lmap fs with
  | some eid => (eid, s)
  | none => (s.nextId, ⟨mapSet s.loaders lid (mapSet lmap fs s.nextId), s.nextId + 1⟩)

/-- Run a sequence of factory get calls, each given as a loader id and a
stringified filter. -/
def runGets (s : FactoryState) : List (Nat × String) → FactoryState
  | [] => s
  | (lid, fs) :: rest => runGets (factoryGetMany s lid fs).2 rest

/-- Observable of the factory state: the executor id memoized for a loader
and stringified filter, when one has been created. -/
def factoryLookup (s : FactoryState) (lid : Nat) (fs : String) : Option Nat :=
  mapGet ((mapGet s.loaders lid).getD []) fs

/-- Modelled from the spec: Promise.all over the per-key load promises, which
rejects as soon as any constituent rejects and otherwise yields all values. -/
def promiseAll {E : Type u} {W : Type v} : List (Except E W) → Except E (List W)
  | [] => .ok []
  | .error e :: _ => .error e
  | .ok w :: rest => (promiseAll rest).map (fun l => w :: l)

/-- Modelled from the spec: the external unique helper of txstate-utils,
which deduplicates a list by an extracted identity key, keeping the first
occurrence of each key. -/
def uniqueBy [DecidableEq K] (f : R → K) : List R → List R
  | [] => []
  | r :: rest => r :: uniqueBy f (rest.filter (fun r2 => decide (f r2 ≠ f r)))
termination_by l => l.length
decreasing_by
  simp only [List.length_cons]
  exact Nat.lt_succ_of_le (List.length_filter_le _ _)

/-- Translated from src/index.ts lines 412 to 414 (DataLoaderFactory.loadMany,
PrimaryKeyLoader and BestMatchLoader branch): await all loads, drop undefined
entries. -/
def loadManyPrimary {E : Type u} (load : K → Except E (Option R)) (keys : List K) :
    Except E (List R) :=
  (promiseAll (keys.map load)).map (fun rs => rs.filterMap id)

/-- Translated from src/index.ts lines 415 to 417 (DataLoaderFactory.loadMany,
BaseManyLoader branch): await all loads, flatten the per-key arrays. -/
def loadManyMany {E : Type u} (load : K → Except E (List R)) (keys : List K) :
    Except E (List R) :=
  (promiseAll (keys.map load)).map (fun rs => rs.flatten)

/-- Translated from src/index.ts lines 408 to 411 (DataLoaderFactory.loadMany,
ParentDocumentLoader branch): await all loads, drop null and undefined
entries, deduplicate by parentId. -/
def loadManyParentDocument {E : Type u} [DecidableEq K]
    (load : K → Except E (Option R)) (parentId : R → K) (keys : List K) :
    Except E (List R) :=
  (promiseAll (keys.map load)).map (fun rs => uniqueBy parentId (rs.filterMap id))

/-- Modelled from the spec: priming inserts the row into the persistent cache
of the target primary-key executor under the given stringified key. -/
def primeCache (cache : List (String × R)) (k : String) (item : R) : List (String × R) :=
  mapSet cache k item

/-- Translated from src/index.ts lines 93 to 97 (BaseManyLoader.prime) and
lines 49 to 53 (the priming loop of PrimaryKeyLoader.init): every item is
primed into the target cache under the stringified form of the target
extractId applied to the item. -/
def primeAll (ckf : K → String) (extractId : R → K) (cache : List (String × R))
    (items : List R) : List (String × R) :=
  items.foldl (fun c item => primeCache c (ckf (extractId item)) item) cache

/-- Translated from src/index.ts lines 217 to 221 (ManyJoinedLoader.prime):
every pair primes its value component under the stringified form of the
target extractId applied to that value. -/
def mjPrime (ckf : K → String) (extractId : R → K) (cache : List (String × R))
    (pairs : List (ManyJoinedType K R)) : List (String × R) :=
  pairs.foldl (fun c p => primeCache c (ckf (extractId p.value)) p.value) cache

/-- Modelled from the spec: a later load on a primary-key executor is served
from the persistent cache with zero fetch invocations when the stringified key
is cached, and otherwise starts a new one-fetch batch. The first component
counts fetch-function invocations. -/
def pkLoadFromCache (ckf : K → String) (extractId : R → K) (fetch : List K → List R)
    (cache : List (String × R)) (k : K) : Nat × Option R :=
  match mapGet cache (ckf k) with
  | some r => (0, some r)
  | none => (1, (pkBatchFn ckf extractId fetch [k]).headD none)

/-- Translated from src/index.ts line 106 (BaseManyLoader.getDataLoader): the
storage object of a freshly created executor carries a cache Map exactly when
skipCache is off; cache identity is modelled by a numeric id. -/
def storageCache (skipCache : Bool) (cacheId : Nat) : Option Nat :=
  if skipCache then none else some cacheId

/-- Translated from src/index.ts lines 138 to 140 (BaseManyLoader.getCache):
look up the storage object of the stringified filter and take its cache, which
is absent when the storage object is missing or carries no cache. -/
def baseManyGetCache (cached : List (String × Option Nat)) (filterstring : String) :
    Option Nat :=
  (mapGet cached filterstring).bind id

/-- Translated from src/index.ts lines 425 to 432 (DataLoaderFactory.getCache,
BaseManyLoader branch): an uninitialized loader yields undefined; otherwise a
missing cache raises the skipCache error and a present cache is returned. -/
def factoryGetCacheMany (entry : Option (List (String × Option Nat)))
    (filterstring : String) : Except String (Option Nat) :=
  match entry with
  | none => .ok none
  | some cached =>
    match baseManyGetCache cached filterstring with
    | none => .error "Cannot get cache for a loader that has the skipCache option enabled."
    | some c => .ok (some c)

theorem mapGet_mapSet_self [DecidableEq κ] (m : List (κ × V)) (s : κ) (w : V) :
    mapGet (mapSet m s w) s = some w := by
  induction m with
  | nil => simp [mapGet, mapSet]
  | cons p rest ih =>
    obtain ⟨k, w0⟩ := p
    by_cases h : k = s <;> simp [mapGet, mapSet, h, ih]

theorem mapGet_mapSet_ne [DecidableEq κ] (m : List (κ × V)) (s t : κ) (w : V)
    (hne : s ≠ t) : mapGet (mapSet m s w) t = mapGet m t := by
  induction m with
  | nil => simp [mapGet, mapSet, hne]
  | cons p rest ih =>
    obtain ⟨k, w0⟩ := p
    by_cases h : k = s
    · subst h
      simp only [mapSet, if_pos rfl]
      simp [mapGet, hne]
    · simp only [mapSet, if_neg h]
      by_cases h2 : k = t <;> simp [mapGet, h2, ih]

theorem mapGet_zip_map {β : Type v} (l : List String) (g : String → β) (s : String) :
    mapGet (l.zip (l.map g)) s = if s ∈ l then some (g s) else none := by
  induction l with
  | nil => simp [mapGet]
  | cons x rest ih =>
    simp only [List.map_cons, List.zip_cons_cons, mapGet]
    by_cases h : x = s
    · subst h
      simp
    · rw [if_neg h]
      exact ih.trans (by simp [List.mem_cons, Ne.symm h])

theorem getLast?_cons_eq_optOr {α : Type v} (a : α) (l : List α) :
    (a :: l).getLast? = optOr l.getLast? (some a) := by
  cases l with
  | nil => simp [optOr]
  | cons b t =>
    rw [List.getLast?_cons_cons]
    cases h : (b :: t).getLast? with
    | none => simp at h
    | some w => simp [optOr]

/-- Folding Map.set over a list of items keyed by keyOf: the final lookup at s
yields the last item whose key is s, falling back to the initial map. -/
theorem mapGet_foldl_set (keyOf : R → String) (items : List R)
    (m : List (String × R)) (s : String) :
    mapGet (items.foldl (fun c item => mapSet c (keyOf item) item) m) s
      = optOr ((items.filter (fun r => decide (keyOf r = s))).getLast?) (mapGet m s) := by
  induction items generalizing m with
  | nil => simp [optOr]
  | cons item rest ih =>
    simp only [List.foldl_cons, List.filter_cons]
    rw [ih]
    by_cases h : keyOf item = s
    · rw [if_pos (by simp [h]), h, mapGet_mapSet_self, getLast?_cons_eq_optOr]
      cases (rest.filter (fun r => decide (keyOf r = s))).getLast? <;> simp [optOr]
    · rw [if_neg (by simp [h]), mapGet_mapSet_ne _ _ _ _ h]

theorem pkKeyed_lookup (ckf : K → String) (extractId : R → K) (items : List R)
    (s : String) :
    mapGet (pkKeyed ckf extractId items) s
      = (items.filter (fun r => decide (ckf (extractId r) = s))).getLast? := by
  rw [pkKeyed, mapGet_foldl_set (fun r => ckf (extractId r)) items [] s]
  cases (items.filter (fun r => decide (ckf (extractId r) = s))).getLast? <;>
    simp [optOr, mapGet]

theorem pkKeyed_lookup_sound (ckf : K → String) (extractId : R → K) (items : List R)
    (s : String) (r : R) (h : mapGet (pkKeyed ckf extractId items) s = some r) :
    r ∈ items ∧ ckf (extractId r) = s := by
  rw [pkKeyed_lookup] at h
  have hm : r ∈ (items.filter (fun r => decide (ckf (extractId r) = s))).getLast? := by
    rw [h]
    rfl
  obtain ⟨hne, heq⟩ := List.mem_getLast?_eq_getLast hm
  have hmem : r ∈ items.filter (fun r => decide (ckf (extractId r) = s)) := by
    rw [heq]
    exact List.getLast_mem hne
  have := List.of_mem_filter hmem
  exact ⟨List.mem_of_mem_filter hmem, by simpa using this⟩

theorem pkKeyed_lookup_none_iff (ckf : K → String) (extractId : R → K) (items : List R)
    (s : String) :
    mapGet (pkKeyed ckf extractId items) s = none
      ↔ ∀ r ∈ items, ckf (extractId r) ≠ s := by
  rw [pkKeyed_lookup, List.getLast?_eq_none_iff]
  constructor
  · intro h r hr hs
    have : r ∈ items.filter (fun r => decide (ckf (extractId r) = s)) :=
      List.mem_filter.mpr ⟨hr, by simpa using hs⟩
    simp [h] at this
  · intro h
    rw [List.filter_eq_nil_iff]
    intro r hr
    simpa using h r hr

theorem dedupLoads_subset (ckf : K → String) : ∀ l : List K, ∀ x ∈ dedupLoads ckf l, x ∈ l
  | [] => by simp [dedupLoads]
  | k :: rest => by
    intro x hx
    rw [dedupLoads] at hx
    rcases List.mem_cons.mp hx with h | h
    · exact List.mem_cons.mpr (Or.inl h)
    · have := dedupLoads_subset ckf
        (rest.filter (fun k2 => decide (ckf k2 ≠ ckf k))) x h
      exact List.mem_cons_of_mem _ (List.mem_of_mem_filter this)
termination_by l => l.length
decreasing_by
  simp only [List.length_cons]
  exact Nat.lt_succ_of_le (List.length_filter_le _ _)

theorem dedupLoads_covers (ckf : K → String) :
    ∀ l : List K, ∀ k ∈ l, ckf k ∈ (dedupLoads ckf l).map ckf
  | [] => by simp
  | k0 :: rest => by
    intro k hk
    rw [dedupLoads]
    simp only [List.map_cons, List.mem_cons]
    by_cases heq : ckf k = ckf k0
    · exact Or.inl heq
    · rcases List.mem_cons.mp hk with h | h
      · exact absurd (congrArg ckf h) heq
      · refine Or.inr (dedupLoads_covers ckf
          (rest.filter (fun k2 => decide (ckf k2 ≠ ckf k0))) k ?_)
        exact List.mem_filter.mpr ⟨h, by simpa using heq⟩
termination_by l => l.length
decreasing_by
  simp only [List.length_cons]
  exact Nat.lt_succ_of_le (List.length_filter_le _ _)

theorem dedupLoads_nodup (ckf : K → String) :
    ∀ l : List K, ((dedupLoads ckf l).map ckf).Nodup
  | [] => by simp [dedupLoads]
  | k :: rest => by
    rw [dedupLoads]
    simp only [List.map_cons, List.nodup_cons]
    refine ⟨?_, dedupLoads_nodup ckf (rest.filter (fun k2 => decide (ckf k2 ≠ ckf k)))⟩
    intro hmem
    rcases List.mem_map.mp hmem with ⟨x, hx, hxe⟩
    have hx2 := dedupLoads_subset ckf _ x hx
    have := List.of_mem_filter hx2
    simp only [decide_eq_true_eq] at this
    exact this hxe
termination_by l => l.length
decreasing_by
  simp only [List.length_cons]
  exact Nat.lt_succ_of_le (List.length_filter_le _ _)

/-- Claim C1: in one scheduling turn of a PrimaryKeyLoader, fetch is invoked
exactly once with the per-tick distinct keys (distinct and covering by
stringified form), and every load call, duplicates included, resolves to a
fetched row whose extracted id stringifies equal to its key, or to undefined
exactly when no fetched row does. -/
theorem primaryKey_tick_resolves_by_stringified_id
    (ckf : K → String) (extractId : R → K) (fetch : List K → List R)
    (loads : List K) :
    (pkRunTick ckf extractId fetch loads).1 = [dedupLoads ckf loads] ∧
    ((dedupLoads ckf loads).map ckf).Nodup ∧
    (∀ k ∈ loads, ckf k ∈ (dedupLoads ckf loads).map ckf) ∧
    (∀ k ∈ dedupLoads ckf loads, k ∈ loads) ∧
    (pkRunTick ckf extractId fetch loads).2.length = loads.length ∧
    (∀ (i : Nat) (k : K), loads[i]? = some k →
      (∀ r, (pkRunTick ckf extractId fetch loads).2[i]? = some (some r) →
        r ∈ fetch (dedupLoads ckf loads) ∧ ckf (extractId r) = ckf k) ∧
      ((pkRunTick ckf extractId fetch loads).2[i]? = some none ↔
        ∀ r ∈ fetch (dedupLoads ckf loads), ckf (extractId r) ≠ ckf k)) := by
  refine ⟨rfl, dedupLoads_nodup ckf loads, dedupLoads_covers ckf loads,
    dedupLoads_subset ckf loads, by simp [pkRunTick], ?_⟩
  intro i k hk
  have hslot : (pkRunTick ckf extractId fetch loads).2[i]?
      = some (mapGet (pkKeyed ckf extractId (fetch (dedupLoads ckf loads))) (ckf k)) := by
    show (loads.map _)[i]? = _
    rw [List.getElem?_map, hk]
    simp only [Option.map_some']
    congr 1
    rw [pkBatchFn]
    rw [mapGet_zip_map]
    have hc : ckf k ∈ (dedupLoads ckf loads).map ckf :=
      dedupLoads_covers ckf loads k (List.getElem?_mem hk)
    rw [if_pos hc]
    rfl
  rw [hslot]
  constructor
  · intro r hr
    have : mapGet (pkKeyed ckf extractId (fetch (dedupLoads ckf loads))) (ckf k) = some r := by
      exact Option.some.inj hr
    exact pkKeyed_lookup_sound _ _ _ _ _ this
  · rw [Option.some_inj]
    exact pkKeyed_lookup_none_iff _ _ _ _

/-- Witness for claim C1 at a concrete input: loading keys 3, 3, 4 with a
fetch returning only row 3 resolves the duplicate loads of 3 to row 3 and the
load of the missing key 4 to undefined. -/
theorem primaryKey_tick_witness :
    (pkRunTick (fun n : Nat => toString n) (fun r : Nat => r) (fun _ => [3]) [3, 3, 4]).2[2]?
      = some none ∧
    (∀ r, (pkRunTick (fun n : Nat => toString n) (fun r : Nat => r) (fun _ => [3]) [3, 3, 4]).2[0]?
      = some (some r) → r ∈ [3] ∧ toString r = toString 3) := by
  have h := primaryKey_tick_resolves_by_stringified_id
    (fun n : Nat => toString n) (fun r : Nat => r) (fun _ => [3]) [3, 3, 4]
  constructor
  · exact ((h.2.2.2.2.2 2 4 (by decide)).2).mpr (by decide)
  · intro r hr
    exact (h.2.2.2.2.2 0 3 (by decide)).1 r hr

/-- Counterexample to claim C4: a OneToManyLoader definition and a
ManyToManyLoader definition declaring both key-association strategies
construct successfully (matchKey takes precedence); the code does not throw
in the both-supplied case. -/
theorem ctor_both_strategies_constructs :
    oneToManyCtor (fun n : Nat => toString n) (some (fun _ _ => true))
        (some (fun r : Nat => r))
      = Except.ok (groupByMatchKey (fun n : Nat => toString n) (fun _ _ => true)) ∧
    manyToManyCtor (fun n : Nat => toString n) (some (fun _ _ => true))
        (some (fun r : Nat => [r]))
      = Except.ok (groupByMatchKey (fun n : Nat => toString n) (fun _ _ => true)) :=
  ⟨rfl, rfl⟩

/-- Claim C4, amended: construction of a OneToManyLoader or ManyToManyLoader
fails with the thrown error exactly when neither strategy is supplied; when
matchKey is supplied it wins regardless of extractKey or extractKeys, and the
extract strategy is used only when matchKey is absent. -/
theorem ctor_fails_iff_neither_strategy :
    (∀ (ckf : K → String) (mk : Option (K → R → Bool)) (ek : Option (R → K)),
      (∃ e, oneToManyCtor ckf mk ek = Except.error e) ↔ (mk = none ∧ ek = none)) ∧
    (∀ (ckf : K → String) (mk : Option (K → R → Bool)) (eks : Option (R → List K)),
      (∃ e, manyToManyCtor ckf mk eks = Except.error e) ↔ (mk = none ∧ eks = none)) ∧
    (∀ (ckf : K → String) (mk : K → R → Bool) (ek : Option (R → K)),
      oneToManyCtor ckf (some mk) ek = Except.ok (groupByMatchKey ckf mk)) ∧
    (∀ (ckf : K → String) (ek : R → K),
      oneToManyCtor ckf none (some ek) = Except.ok (oneToManyGroupExtract ckf ek)) ∧
    (∀ (ckf : K → String) (mk : K → R → Bool) (eks : Option (R → List K)),
      manyToManyCtor ckf (some mk) eks = Except.ok (groupByMatchKey ckf mk)) ∧
    (∀ (ckf : K → String) (eks : R → List K),
      manyToManyCtor ckf none (some eks) = Except.ok (manyToManyGroupKeys ckf eks)) := by
  refine ⟨?_, ?_, fun _ _ _ => rfl, fun _ _ => rfl, fun _ _ _ => rfl, fun _ _ => rfl⟩
  · intro ckf mk ek
    cases mk with
    | some mk => simp [oneToManyCtor]
    | none =>
      cases ek with
      | some ek => simp [oneToManyCtor]
      | none => simp [oneToManyCtor]
  · intro ckf mk eks
    cases mk with
    | some mk => simp [manyToManyCtor]
    | none =>
      cases eks with
      | some eks => simp [manyToManyCtor]
      | none => simp [manyToManyCtor]

/-- Claim C10: the default id extractor returns the id property exactly when
it is truthy and otherwise falls back to the underscore-id property; the falsy
values are undefined, null, false, 0 and the empty string; and both the
PrimaryKeyLoader and ParentDocumentLoader constructors install defaultId when
no accessor is configured. -/
theorem defaultId_truthiness_fallback :
    (∀ item : JRow, truthy (prop item "id") = true → defaultId item = prop item "id") ∧
    (∀ item : JRow, truthy (prop item "id") = false → defaultId item = prop item "_id") ∧
    (∀ w : JSVal, truthy w = false ↔
      w = JSVal.undef ∨ w = JSVal.null ∨ w = JSVal.bool false ∨
      w = JSVal.num 0 ∨ w = JSVal.str "") ∧
    resolveIdAccessor none = defaultId := by
  refine ⟨?_, ?_, ?_, rfl⟩
  · intro item h
    simp [defaultId, h]
  · intro item h
    simp [defaultId, h]
  · intro w
    cases w with
    | undef => simp [truthy]
    | null => simp [truthy]
    | bool b => cases b <;> simp [truthy]
    | num n => simp [truthy]
    | str s => simp [truthy]

/-- Witness for claim C10: a row with id 0 and an underscore-id is keyed by
the underscore-id even though an id property is present. -/
theorem defaultId_witness :
    defaultId [("id", JSVal.num 0), ("_id", JSVal.str "x")] = JSVal.str "x" := by
  have h := defaultId_truthiness_fallback
  exact (h.2.1 [("id", JSVal.num 0), ("_id", JSVal.str "x")] (by decide)).trans (by decide)

/-- Counterexample to claim C9: a many loader with caching enabled (skipCache
off, so its one created executor carries a cache) still raises the
cache-disabled error from getCache when asked for a stringified filter whose
executor was never created. -/
theorem getCache_errors_despite_caching_enabled :
    factoryGetCacheMany (some [("A", storageCache false 0)]) "B"
      = Except.error "Cannot get cache for a loader that has the skipCache option enabled." ∧
    storageCache false 0 = some 0 := by
  constructor <;> rfl

/-- Claim C9, amended: getCache returns undefined when the loader was never
initialized in this factory; for an initialized many loader it returns the
cache map of the executor for the given stringified filter when that executor
exists and carries a cache, and it throws the cache-disabled error exactly
when the storage object for that stringified filter is absent or carries no
cache, which happens when skipCache is set but also when that filter executor
was never created. -/
theorem getCache_characterization :
    (∀ fs : String, factoryGetCacheMany none fs = Except.ok none) ∧
    (∀ (cached : List (String × Option Nat)) (fs : String),
      (∃ e, factoryGetCacheMany (some cached) fs = Except.error e)
        ↔ baseManyGetCache cached fs = none) ∧
    (∀ (cached : List (String × Option Nat)) (fs : String) (c : Nat),
      factoryGetCacheMany (some cached) fs = Except.ok (some c)
        ↔ baseManyGetCache cached fs = some c) ∧
    (∀ (fs : String) (skip : Bool) (cid : Nat),
      baseManyGetCache [(fs, storageCache skip cid)] fs = none ↔ skip = true) ∧
    (∀ (fs fs2 : String) (skip : Bool) (cid : Nat), fs ≠ fs2 →
      baseManyGetCache [(fs, storageCache skip cid)] fs2 = none) := by
  refine ⟨fun _ => rfl, ?_, ?_, ?_, ?_⟩
  · intro cached fs
    cases h : baseManyGetCache cached fs with
    | none => simp [factoryGetCacheMany, h]
    | some c => simp [factoryGetCacheMany, h]
  · intro cached fs c
    cases h : baseManyGetCache cached fs with
    | none => simp [factoryGetCacheMany, h]
    | some c2 => simp [factoryGetCacheMany, h]
  · intro fs skip cid
    cases skip <;> simp [baseManyGetCache, storageCache, mapGet]
  · intro fs fs2 skip cid hne
    simp [baseManyGetCache, mapGet, hne]

/-- Witness for claim C9 at a concrete input: a loader initialized with a
filter string A answers getCache for A with its cache, and an uninitialized
loader yields undefined. -/
theorem getCache_characterization_witness :
    factoryGetCacheMany (some [("A", storageCache false 0)]) "A" = Except.ok (some 0) ∧
    baseManyGetCache [("A", storageCache true 0)] "B" = none := by
  have h := getCache_characterization
  constructor
  · exact (h.2.2.1 [("A", storageCache false 0)] "A" 0).mpr (by decide)
  · exact h.2.2.2.2 "A" "B" true 0 (by decide)

theorem mapGet_pushRecord (ret : List (String × List R)) (k s : String) (it : R) :
    mapGet (pushRecord ret k it) s
      = if k = s then some (((mapGet ret s).getD []) ++ [it]) else mapGet ret s := by
  rw [pushRecord]
  by_cases h : k = s
  · subst h
    rw [if_pos rfl, mapGet_mapSet_self]
  · rw [if_neg h, mapGet_mapSet_ne _ _ _ _ h]

theorem extract_group_bucket_aux (ckf : K → String) (ek : R → K) (s : String) :
    ∀ (items : List R) (ret : List (String × List R)),
      (mapGet (items.foldl (fun ret item => pushRecord ret (ckf (ek item)) item) ret) s).getD []
        = ((mapGet ret s).getD []) ++ items.filter (fun it => decide (ckf (ek it) = s))
  | [], ret => by simp
  | item :: rest, ret => by
    simp only [List.foldl_cons, List.filter_cons]
    rw [extract_group_bucket_aux ckf ek s rest (pushRecord ret (ckf (ek item)) item)]
    by_cases h : ckf (ek item) = s
    · rw [mapGet_pushRecord, if_pos h, if_pos (by simp [h])]
      simp
    · rw [mapGet_pushRecord, if_neg h, if_neg (by simp [h])]

/-- Bucket contents of the extractKey grouping: exactly the items whose
extracted key stringifies to the bucket key, in fetch order. -/
theorem oneToManyGroupExtract_bucket (ckf : K → String) (ek : R → K)
    (items : List R) (dedup : List K) (s : String) :
    (mapGet (oneToManyGroupExtract ckf ek items dedup) s).getD []
      = items.filter (fun it => decide (ckf (ek it) = s)) := by
  rw [oneToManyGroupExtract, extract_group_bucket_aux ckf ek s items []]
  simp [mapGet]

theorem mj_group_bucket_aux (ckf : K → String) (s : String) :
    ∀ (pairs : List (ManyJoinedType K R)) (ret : List (String × List R)),
      (mapGet (pairs.foldl (fun ret p => pushRecord ret (ckf p.key) p.value) ret) s).getD []
        = ((mapGet ret s).getD [])
            ++ (pairs.filter (fun p => decide (ckf p.key = s))).map (fun p => p.value)
  | [], ret => by simp
  | p :: rest, ret => by
    simp only [List.foldl_cons, List.filter_cons]
    rw [mj_group_bucket_aux ckf s rest (pushRecord ret (ckf p.key) p.value)]
    by_cases h : ckf p.key = s
    · rw [mapGet_pushRecord, if_pos h, if_pos (by simp [h])]
      simp
    · rw [mapGet_pushRecord, if_neg h, if_neg (by simp [h])]

/-- Bucket contents of the ManyJoined grouping: the value components of the
pairs whose join key stringifies to the bucket key, in fetch order. -/
theorem manyJoinedGroupItems_bucket (ckf : K → String)
    (pairs : List (ManyJoinedType K R)) (dedup : List K) (s : String) :
    (mapGet (manyJoinedGroupItems ckf pairs dedup) s).getD []
      = (pairs.filter (fun p => decide (ckf p.key = s))).map (fun p => p.value) := by
  rw [manyJoinedGroupItems, mj_group_bucket_aux ckf s pairs []]
  simp [mapGet]

theorem mtm_inner_bucket (ckf : K → String) (it : R) (s : String) :
    ∀ (ks : List K) (ret : List (String × List R)),
      (mapGet (ks.foldl (fun r k => pushRecord r (ckf k) it) ret) s).getD []
        = ((mapGet ret s).getD [])
            ++ List.replicate ((ks.map ckf).countP (fun x => decide (x = s))) it
  | [], ret => by simp
  | k :: rest, ret => by
    simp only [List.foldl_cons, List.map_cons, List.countP_cons]
    rw [mtm_inner_bucket ckf it s rest (pushRecord ret (ckf k) it)]
    by_cases h : ckf k = s
    · rw [mapGet_pushRecord, if_pos h]
      simp only [h, decide_eq_true_eq, if_pos rfl]
      rw [Nat.add_comm, List.replicate_add]
      simp
    · rw [mapGet_pushRecord, if_neg h]
      simp [h]

theorem mtm_group_bucket_aux (ckf : K → String) (eks : R → List K) (s : String) :
    ∀ (items : List R) (ret : List (String × List R)),
      (mapGet (items.foldl
          (fun ret item => (eks item).foldl (fun r k => pushRecord r (ckf k) item) ret) ret) s).getD []
        = ((mapGet ret s).getD [])
            ++ (items.map (fun it =>
                List.replicate (((eks it).map ckf).countP (fun x => decide (x = s))) it)).flatten
  | [], ret => by simp
  | item :: rest, ret => by
    simp only [List.foldl_cons, List.map_cons, List.flatten_cons]
    rw [mtm_group_bucket_aux ckf eks s rest _, mtm_inner_bucket ckf item s (eks item) ret]
    simp [List.append_assoc]

/-- Bucket contents of the extractKeys grouping: every item appears once per
extracted key stringifying to the bucket key, in fetch order. -/
theorem manyToManyGroupKeys_bucket (ckf : K → String) (eks : R → List K)
    (items : List R) (dedup : List K) (s : String) :
    (mapGet (manyToManyGroupKeys ckf eks items dedup) s).getD []
      = (items.map (fun it =>
          List.replicate (((eks it).map ckf).countP (fun x => decide (x = s))) it)).flatten := by
  rw [manyToManyGroupKeys, mtm_group_bucket_aux ckf eks s items []]
  simp [mapGet]

theorem mem_mapSet [DecidableEq κ] (m : List (κ × V)) (s : κ) (w : V) :
    ∀ p ∈ mapSet m s w, p = (s, w) ∨ p ∈ m := by
  induction m with
  | nil => simp [mapSet]
  | cons q rest ih =>
    obtain ⟨k, w0⟩ := q
    intro p hp
    by_cases h : k = s
    · rw [mapSet, if_pos h] at hp
      rcases List.mem_cons.mp hp with h2 | h2
      · exact Or.inl h2
      · exact Or.inr (List.mem_cons_of_mem _ h2)
    · rw [mapSet, if_neg h] at hp
      rcases List.mem_cons.mp hp with h2 | h2
      · exact Or.inr (by simp [h2])
      · rcases ih p h2 with h3 | h3
        · exact Or.inl h3
        · exact Or.inr (List.mem_cons_of_mem _ h3)

theorem mapSet_keys [DecidableEq κ] (m : List (κ × V)) (s : κ) (w : V) :
    (mapSet m s w).map Prod.fst
      = if s ∈ m.map Prod.fst then m.map Prod.fst else m.map Prod.fst ++ [s] := by
  induction m with
  | nil => simp [mapSet]
  | cons q rest ih =>
    obtain ⟨k, w0⟩ := q
    by_cases h : k = s
    · subst h
      simp [mapSet]
    · rw [mapSet, if_neg h]
      simp only [List.map_cons]
      rw [ih]
      by_cases h2 : s ∈ rest.map Prod.fst
      · rw [if_pos h2, if_pos (by simp [h2])]
      · rw [if_neg h2, if_neg (by simp [h2, Ne.symm h])]
        simp

theorem foldl_mapSet_keys_nodup (ckf : K → String) :
    ∀ (keys : List K) (m : List (String × K)), (m.map Prod.fst).Nodup →
      ((keys.foldl (fun m k => mapSet m (ckf k) k) m).map Prod.fst).Nodup
  | [], _ => fun h => h
  | k :: rest, m => fun h => by
    simp only [List.foldl_cons]
    refine foldl_mapSet_keys_nodup ckf rest _ ?_
    rw [mapSet_keys]
    by_cases h2 : ckf k ∈ m.map Prod.fst
    · rw [if_pos h2]
      exact h
    · rw [if_neg h2]
      simp [List.nodup_append, h, h2]

theorem foldl_mapSet_keys_covers (ckf : K → String) :
    ∀ (keys : List K) (m : List (String × K)) (t : String),
      (t ∈ m.map Prod.fst ∨ t ∈ keys.map ckf) →
      t ∈ ((keys.foldl (fun m k => mapSet m (ckf k) k) m).map Prod.fst)
  | [], m, t => by simp
  | k :: rest, m, t => fun h => by
    simp only [List.foldl_cons]
    apply foldl_mapSet_keys_covers ckf rest _ t
    have hstep : ∀ u : String, u ∈ m.map Prod.fst ∨ u = ckf k →
        u ∈ (mapSet m (ckf k) k).map Prod.fst := by
      intro u hu
      rw [mapSet_keys]
      by_cases h2 : ckf k ∈ m.map Prod.fst
      · rw [if_pos h2]
        rcases hu with hu | hu
        · exact hu
        · exact hu ▸ h2
      · rw [if_neg h2]
        rcases hu with hu | hu
        · exact List.mem_append_left _ hu
        · exact List.mem_append_right _ (by simp [hu])
    rcases h with h | h
    · exact Or.inl (hstep t (Or.inl h))
    · rw [List.map_cons] at h
      rcases List.mem_cons.mp h with h3 | h3
      · exact Or.inl (hstep t (Or.inr h3))
      · exact Or.inr h3

theorem foldl_mapSet_entries (ckf : K → String) :
    ∀ (keys : List K) (m : List (String × K)),
      ∀ p ∈ keys.foldl (fun m k => mapSet m (ckf k) k) m,
        (ckf p.2 = p.1 ∧ p.2 ∈ keys) ∨ p ∈ m
  | [], _ => by simp
  | k :: rest, m => by
    intro p hp
    simp only [List.foldl_cons] at hp
    rcases foldl_mapSet_entries ckf rest _ p hp with h | h
    · exact Or.inl ⟨h.1, List.mem_cons_of_mem _ h.2⟩
    · rcases mem_mapSet m (ckf k) k p h with h2 | h2
      · subst h2
        exact Or.inl ⟨rfl, List.mem_cons_self _ _⟩
      · exact Or.inr h2

theorem dedupekeys_entries (ckf : K → String) (keys : List K) :
    ∀ p ∈ dedupekeys ckf keys, ckf p.2 = p.1 ∧ p.2 ∈ keys := by
  intro p hp
  rcases foldl_mapSet_entries ckf keys [] p hp with h | h
  · exact h
  · simp at h

theorem dedupekeys_strings_nodup (ckf : K → String) (keys : List K) :
    ((dedupekeys ckf keys).map Prod.fst).Nodup :=
  foldl_mapSet_keys_nodup ckf keys [] (by simp)

theorem dedupekeys_covers (ckf : K → String) (keys : List K) :
    ∀ k ∈ keys, ckf k ∈ (dedupekeys ckf keys).map Prod.fst := by
  intro k hk
  exact foldl_mapSet_keys_covers ckf keys [] (ckf k)
    (Or.inr (List.mem_map_of_mem ckf hk))

theorem dedupekeys_values_strings (ckf : K → String) (keys : List K) :
    ((dedupekeys ckf keys).map (fun p => p.2)).map ckf
      = (dedupekeys ckf keys).map Prod.fst := by
  rw [List.map_map]
  exact List.map_congr_left (fun p hp => (dedupekeys_entries ckf keys p hp).1)

/-- Claim C2: a many-loader batch passes exactly the stringified-form-distinct
keys to fetch (covering every requested key and drawn from the requested
keys), and every load call, duplicates included, resolves to an array, namely
the bucket of surviving rows grouped under its stringified key, or the empty
array when that bucket is absent; survivors are the fetched rows that pass
filterItems. -/
theorem manyLoader_batch_dedup_and_buckets {A : Type w}
    (ckf : K → String) (filterItems : List A → List A)
    (groupItems : List A → List K → List (String × List R))
    (fetch : List K → List A) (keys : List K) :
    ((manyBatchFn ckf filterItems groupItems fetch keys).fetchArg.map ckf).Nodup ∧
    (∀ k ∈ keys, ckf k ∈ (manyBatchFn ckf filterItems groupItems fetch keys).fetchArg.map ckf) ∧
    (∀ k2 ∈ (manyBatchFn ckf filterItems groupItems fetch keys).fetchArg, k2 ∈ keys) ∧
    (manyBatchFn ckf filterItems groupItems fetch keys).survivors
      = filterItems (fetch (manyBatchFn ckf filterItems groupItems fetch keys).fetchArg) ∧
    (manyBatchFn ckf filterItems groupItems fetch keys).results.length = keys.length ∧
    (∀ i : Nat, (manyBatchFn ckf filterItems groupItems fetch keys).results[i]?
      = (keys[i]?).map (fun k =>
          (mapGet (groupItems
            (manyBatchFn ckf filterItems groupItems fetch keys).survivors
            (manyBatchFn ckf filterItems groupItems fetch keys).fetchArg) (ckf k)).getD [])) := by
  refine ⟨?_, ?_, ?_, rfl, ?_, ?_⟩
  · show (((dedupekeys ckf keys).map (fun p => p.2)).map ckf).Nodup
    rw [dedupekeys_values_strings]
    exact dedupekeys_strings_nodup ckf keys
  · intro k hk
    show ckf k ∈ ((dedupekeys ckf keys).map (fun p => p.2)).map ckf
    rw [dedupekeys_values_strings]
    exact dedupekeys_covers ckf keys k hk
  · intro k2 hk2
    rcases List.mem_map.mp hk2 with ⟨p, hp, hpe⟩
    exact hpe ▸ (dedupekeys_entries ckf keys p hp).2
  · show ((keys.map ckf).map _).length = keys.length
    simp
  · intro i
    show ((keys.map ckf).map _)[i]? = _
    rw [List.getElem?_map, List.getElem?_map]
    cases keys[i]? <;> rfl

/-- Witness for claim C2 at a concrete input: keys 1, 1, 2 with an extractKey
grouping over fetched rows 11, 21, 32 keyed by last digit; the first load slot
receives the bucket of key 1 and the stringified key 1 reaches fetch. -/
theorem manyLoader_batch_witness :
    (manyBatchFn (fun n : Nat => toString n) (fun l : List Nat => l)
        (oneToManyGroupExtract (fun n : Nat => toString n) (fun r : Nat => r % 10))
        (fun _ => [11, 21, 32]) [1, 1, 2]).results[0]? = some [11, 21] ∧
    toString 1 ∈ ((manyBatchFn (fun n : Nat => toString n) (fun l : List Nat => l)
        (oneToManyGroupExtract (fun n : Nat => toString n) (fun r : Nat => r % 10))
        (fun _ => [11, 21, 32]) [1, 1, 2]).fetchArg.map (fun n : Nat => toString n)) := by
  have h := manyLoader_batch_dedup_and_buckets (fun n : Nat => toString n)
    (fun l : List Nat => l)
    (oneToManyGroupExtract (fun n : Nat => toString n) (fun r : Nat => r % 10))
    (fun _ => [11, 21, 32]) [1, 1, 2]
  refine ⟨?_, h.2.1 1 (by decide)⟩
  rw [h.2.2.2.2.2 0]
  decide

/-- Counterexample to claim C5: with keysFromFilter returning the empty list,
a fetched row whose key is not among keysFromFilter(filter) is not discarded;
it survives filtering and appears in the load result. -/
theorem keysFromFilter_empty_keeps_rows :
    oneToManyFilterItems (fun n : Nat => toString n)
        (some (fun _ : Nat => ([] : List Nat))) (some (fun r : Nat => r)) 0 [7] = [7] ∧
    (manyBatchFn (fun n : Nat => toString n)
        (oneToManyFilterItems (fun n : Nat => toString n)
          (some (fun _ : Nat => ([] : List Nat))) (some (fun r : Nat => r)) 0)
        (oneToManyGroupExtract (fun n : Nat => toString n) (fun r : Nat => r))
        (fun _ => [7]) [7]).results = [[7]] ∧
    toString (7 : Nat) ∉ (([] : List Nat)).map (fun n : Nat => toString n) := by
  refine ⟨rfl, ?_, by decide⟩
  decide

/-- Claim C5, amended: when keysFromFilter(filter) is nonempty and the loader
uses extract-style key association (always the case for filtering in
OneToManyLoader and ManyToManyLoader; ManyJoinedLoader filters on the join
key), every fetched row whose key(s) are not among keysFromFilter(filter) by
stringified form is discarded before priming and grouping, so it neither
survives (survivors are the rows handed to priming) nor appears in any bucket;
when keysFromFilter(filter) is empty, no row is discarded. -/
theorem keysFromFilter_discards_when_nonempty
    (ckf : K → String) (kff : F → List K) (filters : F) :
    (∀ (ek : R → K) (items : List R), kff filters ≠ [] →
      oneToManyFilterItems ckf (some kff) (some ek) filters items
        = items.filter (fun itm => decide (ckf (ek itm) ∈ (kff filters).map ckf))) ∧
    (∀ (eks : R → List K) (items : List R), kff filters ≠ [] →
      manyToManyFilterItems ckf (some kff) (some eks) filters items
        = items.filter (fun itm =>
            (eks itm).any (fun k2 => decide (ckf k2 ∈ (kff filters).map ckf)))) ∧
    (∀ (pairs : List (ManyJoinedType K R)), kff filters ≠ [] →
      manyJoinedFilterItems ckf (some kff) filters pairs
        = pairs.filter (fun p => decide (ckf p.key ∈ (kff filters).map ckf))) ∧
    (∀ (ek : R → K) (fetch : List K → List R) (keys : List K) (itm : R),
      kff filters ≠ [] →
      itm ∈ (manyBatchFn ckf (oneToManyFilterItems ckf (some kff) (some ek) filters)
              (oneToManyGroupExtract ckf ek) fetch keys).survivors →
      ckf (ek itm) ∈ (kff filters).map ckf) ∧
    (∀ (ek : R → K) (items dedup s) (r : R),
      r ∈ (mapGet (oneToManyGroupExtract ckf ek items dedup) s).getD [] → r ∈ items) ∧
    (∀ (eks : R → List K) (items dedup s) (r : R),
      r ∈ (mapGet (manyToManyGroupKeys ckf eks items dedup) s).getD [] → r ∈ items) ∧
    (∀ (pairs : List (ManyJoinedType K R)) (dedup s) (r : R),
      r ∈ (mapGet (manyJoinedGroupItems ckf pairs dedup) s).getD [] →
      ∃ p ∈ pairs, p.value = r) ∧
    (∀ (ek : R → K) (items : List R), kff filters = [] →
      oneToManyFilterItems ckf (some kff) (some ek) filters items = items) := by
  have hne : ∀ h : kff filters ≠ [], ((kff filters).map ckf).isEmpty = false := by
    intro h
    cases hkf : kff filters with
    | nil => exact absurd hkf h
    | cons a t => simp [List.isEmpty]
  refine ⟨?_, ?_, ?_, ?_, ?_, ?_, ?_, ?_⟩
  · intro ek items h
    rw [oneToManyFilterItems]
    simp only [hne h, Bool.false_eq_true, if_false]
  · intro eks items h
    rw [manyToManyFilterItems]
    simp only [hne h, Bool.false_eq_true, if_false]
  · intro pairs h
    rw [manyJoinedFilterItems]
    simp only [hne h, Bool.false_eq_true, if_false]
  · intro ek fetch keys itm h hmem
    have hsurv : (manyBatchFn ckf (oneToManyFilterItems ckf (some kff) (some ek) filters)
        (oneToManyGroupExtract ckf ek) fetch keys).survivors
        = (fetch ((dedupekeys ckf keys).map (fun p => p.2))).filter
            (fun itm => decide (ckf (ek itm) ∈ (kff filters).map ckf)) := by
      show oneToManyFilterItems ckf (some kff) (some ek) filters _ = _
      rw [oneToManyFilterItems]
      simp only [hne h, Bool.false_eq_true, if_false]
    rw [hsurv] at hmem
    simpa using List.of_mem_filter hmem
  · intro ek items dedup s r hr
    rw [oneToManyGroupExtract_bucket] at hr
    exact List.mem_of_mem_filter hr
  · intro eks items dedup s r hr
    rw [manyToManyGroupKeys_bucket] at hr
    rcases List.mem_flatten.mp hr with ⟨l, hl, hrl⟩
    rcases List.mem_map.mp hl with ⟨it, hit, hite⟩
    rw [← hite] at hrl
    rw [List.eq_of_mem_replicate hrl]
    exact hit
  · intro pairs dedup s r hr
    rw [manyJoinedGroupItems_bucket] at hr
    rcases List.mem_map.mp hr with ⟨p, hp, hpe⟩
    exact ⟨p, List.mem_of_mem_filter hp, hpe⟩
  · intro ek items h
    rw [oneToManyFilterItems]
    simp [h, List.isEmpty]

/-- Witness for the amended claim C5 at a concrete input: with keysFromFilter
producing key 1, the fetched rows 1 and 2 are narrowed to row 1 before
grouping and priming. -/
theorem keysFromFilter_discards_witness :
    oneToManyFilterItems (fun n : Nat => toString n)
        (some (fun _ : Nat => [1])) (some (fun r : Nat => r)) 0 [1, 2]
      = List.filter (fun itm => decide (toString itm ∈ [toString 1])) [1, 2] ∧
    List.filter (fun itm : Nat => decide (toString itm ∈ [toString 1])) [1, 2] = [1] := by
  have h := keysFromFilter_discards_when_nonempty (R := Nat)
    (fun n : Nat => toString n) (fun _ : Nat => [1]) 0
  refine ⟨?_, by decide⟩
  have h2 := h.1 (fun r : Nat => r) [1, 2] (by decide)
  simpa using h2

theorem getLast?_some_mem {α : Type v} {l : List α} {r : α}
    (h : l.getLast? = some r) : r ∈ l := by
  have hm : r ∈ l.getLast? := by
    rw [h]
    rfl
  obtain ⟨hne, heq⟩ := List.mem_getLast?_eq_getLast hm
  rw [heq]
  exact List.getLast_mem hne

theorem primeAll_lookup (ckf : K → String) (extractId : R → K)
    (cache : List (String × R)) (items : List R) (s : String) :
    mapGet (primeAll ckf extractId cache items) s
      = optOr ((items.filter (fun r => decide (ckf (extractId r) = s))).getLast?)
              (mapGet cache s) := by
  show mapGet (items.foldl (fun c item => mapSet c (ckf (extractId item)) item) cache) s = _
  exact mapGet_foldl_set (fun r => ckf (extractId r)) items cache s

theorem mjPrime_eq_primeAll (ckf : K → String) (extractId : R → K)
    (cache : List (String × R)) (pairs : List (ManyJoinedType K R)) :
    mjPrime ckf extractId cache pairs
      = primeAll ckf extractId cache (pairs.map (fun q => q.value)) := by
  rw [mjPrime, primeAll, List.foldl_map]

/-- Claim C8: after a batch fetch, priming inserts every fetched row (for
ManyJoinedLoader, the value component of every pair) into the target cache
under the stringified form of the target extractId of the row, so a later load
of that id is served from cache with zero fetch invocations, resolving to a
fetched row with the same stringified id. -/
theorem priming_caches_fetched_rows (ckf : K → String) (extractId : R → K)
    (fetch : List K → List R) (cache : List (String × R)) :
    (∀ (items : List R) (item : R), item ∈ items →
      ∃ r, mapGet (primeAll ckf extractId cache items) (ckf (extractId item)) = some r ∧
        r ∈ items ∧ ckf (extractId r) = ckf (extractId item) ∧
        pkLoadFromCache ckf extractId fetch (primeAll ckf extractId cache items)
          (extractId item) = (0, some r)) ∧
    (∀ (pairs : List (ManyJoinedType K R)) (p : ManyJoinedType K R), p ∈ pairs →
      ∃ r, mapGet (mjPrime ckf extractId cache pairs) (ckf (extractId p.value)) = some r ∧
        r ∈ pairs.map (fun q => q.value) ∧ ckf (extractId r) = ckf (extractId p.value) ∧
        pkLoadFromCache ckf extractId fetch (mjPrime ckf extractId cache pairs)
          (extractId p.value) = (0, some r)) := by
  have main : ∀ (items : List R) (item : R), item ∈ items →
      ∃ r, mapGet (primeAll ckf extractId cache items) (ckf (extractId item)) = some r ∧
        r ∈ items ∧ ckf (extractId r) = ckf (extractId item) ∧
        pkLoadFromCache ckf extractId fetch (primeAll ckf extractId cache items)
          (extractId item) = (0, some r) := by
    intro items item hmem
    have hin : item ∈ items.filter
        (fun r => decide (ckf (extractId r) = ckf (extractId item))) :=
      List.mem_filter.mpr ⟨hmem, by simp⟩
    have hne : items.filter
        (fun r => decide (ckf (extractId r) = ckf (extractId item))) ≠ [] := by
      intro hnil
      rw [hnil] at hin
      simp at hin
    obtain ⟨r, hr⟩ : ∃ r, (items.filter
        (fun r => decide (ckf (extractId r) = ckf (extractId item)))).getLast? = some r :=
      ⟨_, List.getLast?_eq_getLast_of_ne_nil hne⟩
    have hget : mapGet (primeAll ckf extractId cache items) (ckf (extractId item))
        = some r := by
      rw [primeAll_lookup, hr]
      rfl
    have hrf := getLast?_some_mem hr
    refine ⟨r, hget, List.mem_of_mem_filter hrf,
      by simpa using List.of_mem_filter hrf, ?_⟩
    simp [pkLoadFromCache, hget]
  refine ⟨main, ?_⟩
  intro pairs p hp
  rw [mjPrime_eq_primeAll]
  exact main (pairs.map (fun q => q.value)) p.value (List.mem_map_of_mem _ hp)

/-- Witness for claim C8 at a concrete input: after priming fetched row 5, a
load of id 5 on the target is answered from cache with zero fetch calls. -/
theorem priming_witness :
    pkLoadFromCache (fun n : Nat => toString n) (fun r : Nat => r) (fun _ => [])
      (primeAll (fun n : Nat => toString n) (fun r : Nat => r) [] [5]) 5 = (0, some 5) := by
  obtain ⟨r, h1, h2, h3, h4⟩ := (priming_caches_fetched_rows (fun n : Nat => toString n)
    (fun r : Nat => r) (fun _ => []) []).1 [5] 5 (by decide)
  have hr5 : r = 5 := by simpa using h2
  rw [hr5] at h4
  exact h4

theorem bestMatch_step_other [DecidableEq K] (sm : K → R → Int) (item : R)
    (key k : K) (keyed : List (K × (Int × R))) (hne : key ≠ k) :
    mapGet ((fun keyed2 key =>
        let score := sm key item
        if score = 0 then keyed2
        else
          match mapGet keyed2 key with
          | none => mapSet keyed2 key (score, item)
          | some sr => if sr.1 < score then mapSet keyed2 key (score, item) else keyed2)
      keyed key) k = mapGet keyed k := by
  cases hg : mapGet keyed key with
  | none =>
    by_cases hs : sm key item = 0
    · simp [hs]
    · simp [hs, hg, mapGet_mapSet_ne _ _ _ _ hne]
  | some sr =>
    by_cases hs : sm key item = 0
    · simp [hs]
    · by_cases hlt : sr.1 < sm key item
      · simp [hs, hg, hlt, mapGet_mapSet_ne _ _ _ _ hne]
      · simp [hs, hg, hlt]

theorem bestMatch_step_self [DecidableEq K] (sm : K → R → Int) (item : R)
    (k : K) (keyed : List (K × (Int × R))) :
    mapGet ((fun keyed2 key =>
        let score := sm key item
        if score = 0 then keyed2
        else
          match mapGet keyed2 key with
          | none => mapSet keyed2 key (score, item)
          | some sr => if sr.1 < score then mapSet keyed2 key (score, item) else keyed2)
      keyed k) k = bestStep sm k (mapGet keyed k) item := by
  cases hg : mapGet keyed k with
  | none =>
    by_cases hs : sm k item = 0
    · simp [hs, hg, bestStep]
    · simp [hs, hg, bestStep, mapGet_mapSet_self]
  | some sr =>
    by_cases hs : sm k item = 0
    · simp [hs, hg, bestStep]
    · by_cases hlt : sr.1 < sm k item
      · simp [hs, hg, hlt, bestStep, mapGet_mapSet_self]
      · simp [hs, hg, hlt, bestStep]

theorem bestMatch_inner_not_mem [DecidableEq K] (sm : K → R → Int) (item : R) (k : K) :
    ∀ (ks : List K) (keyed : List (K × (Int × R))), k ∉ ks →
      mapGet (ks.foldl (fun keyed2 key =>
          let score := sm key item
          if score = 0 then keyed2
          else
            match mapGet keyed2 key with
            | none => mapSet keyed2 key (score, item)
            | some sr => if sr.1 < score then mapSet keyed2 key (score, item) else keyed2)
        keyed) k = mapGet keyed k
  | [], keyed => fun _ => rfl
  | key :: rest, keyed => fun hk => by
    have hne : key ≠ k := fun h => hk (h ▸ List.mem_cons_self _ _)
    exact (bestMatch_inner_not_mem sm item k rest _
        (fun h => hk (List.mem_cons_of_mem _ h))).trans
      (bestMatch_step_other sm item key k keyed hne)

theorem bestMatch_inner_mem [DecidableEq K] (sm : K → R → Int) (item : R) (k : K) :
    ∀ (ks : List K) (keyed : List (K × (Int × R))), ks.Nodup → k ∈ ks →
      mapGet (ks.foldl (fun keyed2 key =>
          let score := sm key item
          if score = 0 then keyed2
          else
            match mapGet keyed2 key with
            | none => mapSet keyed2 key (score, item)
            | some sr => if sr.1 < score then mapSet keyed2 key (score, item) else keyed2)
        keyed) k = bestStep sm k (mapGet keyed k) item
  | [], _ => by simp
  | key :: rest, keyed => fun hnd hk => by
    rcases List.nodup_cons.mp hnd with ⟨hkey, hrest⟩
    by_cases heq : key = k
    · subst heq
      exact (bestMatch_inner_not_mem sm item key rest _ hkey).trans
        (bestMatch_step_self sm item key keyed)
    · have hmem : k ∈ rest := by
        rcases List.mem_cons.mp hk with h | h
        · exact absurd h.symm heq
        · exact h
      refine (bestMatch_inner_mem sm item k rest _ hrest hmem).trans ?_
      exact congrArg (fun o => bestStep sm k o item)
        (bestMatch_step_other sm item key k keyed heq)

theorem bestMatchKeyed_outer [DecidableEq K] (sm : K → R → Int) (keys : List K)
    (k : K) (hnd : keys.Nodup) (hk : k ∈ keys) :
    ∀ (items : List R) (keyed : List (K × (Int × R))),
      mapGet (items.foldl (fun keyed item =>
          keys.foldl (fun keyed2 key =>
            let score := sm key item
            if score = 0 then keyed2
            else
              match mapGet keyed2 key with
              | none => mapSet keyed2 key (score, item)
              | some sr => if sr.1 < score then mapSet keyed2 key (score, item) else keyed2)
          keyed) keyed) k
        = items.foldl (bestStep sm k) (mapGet keyed k)
  | [], _ => rfl
  | item :: rest, keyed => by
    refine (bestMatchKeyed_outer sm keys k hnd hk rest _).trans ?_
    exact congrArg (fun o => rest.foldl (bestStep sm k) o)
      (bestMatch_inner_mem sm item k keys keyed hnd hk)

/-- Per-key reading of the BestMatchLoader scan: under the per-tick distinct
keys of the executor, the entry of a requested key equals the single-key fold
bestOf over the fetched items. -/
theorem bestMatchKeyed_lookup [DecidableEq K] (sm : K → R → Int) (items : List R)
    (keys : List K) (k : K) (hnd : keys.Nodup) (hk : k ∈ keys) :
    mapGet (bestMatchKeyed sm items keys) k = bestOf sm k items := by
  rw [bestMatchKeyed, bestOf]
  exact bestMatchKeyed_outer sm keys k hnd hk items []

theorem bestOf_aux (sm : K → R → Int) (k : K) :
    ∀ (l : List R) (acc : Option (Int × R)) (processed : List R),
      ((acc = none ↔ ∀ r ∈ processed, sm k r = 0) ∧
       (∀ s r, acc = some (s, r) → s = sm k r ∧ sm k r ≠ 0 ∧
         (∃ pre post, processed = pre ++ r :: post ∧
           ∀ q ∈ pre, sm k q = 0 ∨ sm k q < sm k r) ∧
         (∀ q ∈ processed, sm k q = 0 ∨ sm k q ≤ sm k r))) →
      ((l.foldl (bestStep sm k) acc = none ↔ ∀ r ∈ processed ++ l, sm k r = 0) ∧
       (∀ s r, l.foldl (bestStep sm k) acc = some (s, r) → s = sm k r ∧ sm k r ≠ 0 ∧
         (∃ pre post, processed ++ l = pre ++ r :: post ∧
           ∀ q ∈ pre, sm k q = 0 ∨ sm k q < sm k r) ∧
         (∀ q ∈ processed ++ l, sm k q = 0 ∨ sm k q ≤ sm k r)))
  | [], acc, processed => fun h => by simpa using h
  | r0 :: rest, acc, processed => fun h => by
    obtain ⟨hnone, hsome⟩ := h
    have hstep :
        (bestStep sm k acc r0 = none ↔ ∀ r ∈ processed ++ [r0], sm k r = 0) ∧
        (∀ s r, bestStep sm k acc r0 = some (s, r) → s = sm k r ∧ sm k r ≠ 0 ∧
          (∃ pre post, processed ++ [r0] = pre ++ r :: post ∧
            ∀ q ∈ pre, sm k q = 0 ∨ sm k q < sm k r) ∧
          (∀ q ∈ processed ++ [r0], sm k q = 0 ∨ sm k q ≤ sm k r)) := by
      cases hacc : acc with
      | none =>
        have hz : ∀ r ∈ processed, sm k r = 0 := hnone.mp hacc
        by_cases hs : sm k r0 = 0
        · have hb : bestStep sm k none r0 = none := by simp [bestStep, hs]
          rw [hb]
          constructor
          · constructor
            · intro _ q hq
              rcases List.mem_append.mp hq with hq | hq
              · exact hz q hq
              · rw [List.mem_singleton.mp hq]
                exact hs
            · intro _
              rfl
          · intro s r hcontra
            simp at hcontra
        · have hb : bestStep sm k none r0 = some (sm k r0, r0) := by simp [bestStep, hs]
          rw [hb]
          constructor
          · refine iff_of_false (by simp) ?_
            intro hall
            exact hs (hall r0 (List.mem_append_right _ (List.mem_singleton_self _)))
          · intro s r heq
            have hinj := Option.some.inj heq
            rw [Prod.mk.injEq] at hinj
            obtain ⟨hseq, hreq⟩ := hinj
            subst hreq
            subst hseq
            refine ⟨rfl, hs, ⟨processed, [], by simp, fun q hq => Or.inl (hz q hq)⟩, ?_⟩
            intro q hq
            rcases List.mem_append.mp hq with hq | hq
            · exact Or.inl (hz q hq)
            · rw [List.mem_singleton.mp hq]
              exact Or.inr le_rfl
      | some sr =>
        obtain ⟨s0, rP⟩ := sr
        obtain ⟨hs0eq, hPnz, ⟨pre, post, hsplit, hpre⟩, hall⟩ := hsome s0 rP hacc
        have hPmem : rP ∈ processed := by
          rw [hsplit]
          exact List.mem_append_right _ (List.mem_cons_self _ _)
        by_cases hs : sm k r0 = 0
        · have hb : bestStep sm k (some (s0, rP)) r0 = some (s0, rP) := by
            simp [bestStep, hs]
          rw [hb]
          constructor
          · refine iff_of_false (by simp) ?_
            intro hall2
            exact hPnz (hall2 rP (List.mem_append_left _ hPmem))
          · intro s r heq
            have hinj := Option.some.inj heq
            rw [Prod.mk.injEq] at hinj
            obtain ⟨hseq, hreq⟩ := hinj
            subst hreq
            subst hseq
            refine ⟨hs0eq, hPnz, ⟨pre, post ++ [r0], by rw [hsplit]; simp, hpre⟩, ?_⟩
            intro q hq
            rcases List.mem_append.mp hq with hq | hq
            · exact hall q hq
            · rw [List.mem_singleton.mp hq]
              exact Or.inl hs
        · by_cases hlt : s0 < sm k r0
          · have hb : bestStep sm k (some (s0, rP)) r0 = some (sm k r0, r0) := by
              simp [bestStep, hs, hlt]
            rw [hb]
            constructor
            · refine iff_of_false (by simp) ?_
              intro hall2
              exact hs (hall2 r0 (List.mem_append_right _ (List.mem_singleton_self _)))
            · intro s r heq
              have hinj := Option.some.inj heq
              rw [Prod.mk.injEq] at hinj
              obtain ⟨hseq, hreq⟩ := hinj
              subst hreq
              subst hseq
              refine ⟨rfl, hs, ⟨processed, [], by simp, ?_⟩, ?_⟩
              · intro q hq
                rcases hall q hq with hq2 | hq2
                · exact Or.inl hq2
                · refine Or.inr (lt_of_le_of_lt ?_ hlt)
                  rw [hs0eq]
                  exact hq2
              · intro q hq
                rcases List.mem_append.mp hq with hq | hq
                · rcases hall q hq with hq2 | hq2
                  · exact Or.inl hq2
                  · refine Or.inr (le_of_lt (lt_of_le_of_lt ?_ hlt))
                    rw [hs0eq]
                    exact hq2
                · rw [List.mem_singleton.mp hq]
                  exact Or.inr le_rfl
          · have hb : bestStep sm k (some (s0, rP)) r0 = some (s0, rP) := by
              simp [bestStep, hs, hlt]
            rw [hb]
            constructor
            · refine iff_of_false (by simp) ?_
              intro hall2
              exact hPnz (hall2 rP (List.mem_append_left _ hPmem))
            · intro s r heq
              have hinj := Option.some.inj heq
              rw [Prod.mk.injEq] at hinj
              obtain ⟨hseq, hreq⟩ := hinj
              subst hreq
              subst hseq
              refine ⟨hs0eq, hPnz, ⟨pre, post ++ [r0], by rw [hsplit]; simp, hpre⟩, ?_⟩
              intro q hq
              rcases List.mem_append.mp hq with hq | hq
              · exact hall q hq
              · rw [List.mem_singleton.mp hq]
                refine Or.inr ?_
                rw [← hs0eq]
                exact Int.not_lt.mp hlt
    have hres := bestOf_aux sm k rest (bestStep sm k acc r0) (processed ++ [r0]) hstep
    simpa [List.append_assoc] using hres

/-- Properties of the single-key fold: the result is none exactly when every
item scores zero, and otherwise it is the first item attaining the maximum
among the nonzero scores. -/
theorem bestOf_spec (sm : K → R → Int) (k : K) (items : List R) :
    (bestOf sm k items = none ↔ ∀ r ∈ items, sm k r = 0) ∧
    (∀ s r, bestOf sm k items = some (s, r) → s = sm k r ∧ sm k r ≠ 0 ∧
      (∃ pre post, items = pre ++ r :: post ∧
        ∀ q ∈ pre, sm k q = 0 ∨ sm k q < sm k r) ∧
      (∀ q ∈ items, sm k q = 0 ∨ sm k q ≤ sm k r)) := by
  have h0 : ((none : Option (Int × R)) = none ↔ ∀ r ∈ ([] : List R), sm k r = 0) ∧
      (∀ s r, (none : Option (Int × R)) = some (s, r) → s = sm k r ∧ sm k r ≠ 0 ∧
        (∃ pre post, ([] : List R) = pre ++ r :: post ∧
          ∀ q ∈ pre, sm k q = 0 ∨ sm k q < sm k r) ∧
        (∀ q ∈ ([] : List R), sm k q = 0 ∨ sm k q ≤ sm k r)) := by
    constructor
    · simp
    · intro s r h
      simp at h
  have := bestOf_aux sm k items none [] h0
  simpa [bestOf] using this

/-- Counterexample to claim C3: a fetched row with a strictly negative score
is returned by load, although no fetched row has a strictly positive score, so
load does not resolve to undefined as the claim requires. -/
theorem bestMatch_negative_score_counterexample :
    bestMatchBatch (fun (_ : Nat) (_ : Nat) => (-1 : Int)) (fun _ => [5]) [3]
      = [some 5] ∧ ((-1 : Int) < 0) := by
  constructor
  · rfl
  · decide

/-- Claim C3, amended: for every BestMatchLoader batch over the per-tick
distinct keys, load(k) resolves to at most one row: the first fetched row, in
fetch-result order, whose scoreMatch(k, row) is nonzero and maximal among the
nonzero scores (the running entry is displaced only by a strictly greater
score, so ties keep the earliest row and negative scores participate); load(k)
resolves to undefined exactly when every fetched row scores zero for k. -/
theorem bestMatch_resolves_nonzero_maximal [DecidableEq K]
    (sm : K → R → Int) (fetch : List K → List R) (keys : List K)
    (hnd : keys.Nodup) :
    (bestMatchBatch sm fetch keys).length = keys.length ∧
    (∀ (i : Nat) (k : K), keys[i]? = some k →
      ((bestMatchBatch sm fetch keys)[i]? = some none ↔
        ∀ r ∈ fetch keys, sm k r = 0) ∧
      (∀ r, (bestMatchBatch sm fetch keys)[i]? = some (some r) →
        r ∈ fetch keys ∧ sm k r ≠ 0 ∧
        (∃ pre post, fetch keys = pre ++ r :: post ∧
          ∀ q ∈ pre, sm k q = 0 ∨ sm k q < sm k r) ∧
        (∀ q ∈ fetch keys, sm k q = 0 ∨ sm k q ≤ sm k r))) := by
  constructor
  · simp [bestMatchBatch]
  · intro i k hk
    have hkmem : k ∈ keys := List.getElem?_mem hk
    have hslot : (bestMatchBatch sm fetch keys)[i]?
        = some ((bestOf sm k (fetch keys)).map (fun sr => sr.2)) := by
      show (keys.map _)[i]? = _
      rw [List.getElem?_map, hk]
      simp only [Option.map_some']
      congr 1
      rw [bestMatchKeyed_lookup sm (fetch keys) keys k hnd hkmem]
    rw [hslot]
    have hspec := bestOf_spec sm k (fetch keys)
    cases hbo : bestOf sm k (fetch keys) with
    | none =>
      constructor
      · rw [Option.some_inj]
        simp only [Option.map_none']
        exact iff_of_true trivial (hspec.1.mp hbo)
      · intro r hr
        rw [Option.some_inj] at hr
        simp at hr
    | some sr =>
      obtain ⟨s0, r0⟩ := sr
      obtain ⟨hs0eq, hnz, hfirst, hmax⟩ := hspec.2 s0 r0 hbo
      obtain ⟨pre, post, hsplit, hpre⟩ := hfirst
      have hr0mem : r0 ∈ fetch keys := by
        rw [hsplit]
        exact List.mem_append_right _ (List.mem_cons_self _ _)
      constructor
      · rw [Option.some_inj]
        simp only [Option.map_some']
        exact iff_of_false (by simp) (fun hall => hnz (hall r0 hr0mem))
      · intro r hr
        rw [Option.some_inj] at hr
        simp only [Option.map_some'] at hr
        have hreq : r0 = r := Option.some.inj hr
        subst hreq
        exact ⟨hr0mem, hnz, ⟨pre, post, hsplit, hpre⟩, hmax⟩

/-- Witness for the amended claim C3 at a concrete input: with two keys and
rows 5 and 7 where key 1 scores 2 on row 5 and 1 on row 7 and key 2 matches
nothing, load(2) resolves to undefined. -/
theorem bestMatch_witness :
    (bestMatchBatch (fun (k : Nat) (r : Nat) =>
        if k = 1 then (if r = 5 then (2 : Int) else 1) else 0)
      (fun _ => [5, 7]) [1, 2]).length = 2 ∧
    (bestMatchBatch (fun (k : Nat) (r : Nat) =>
        if k = 1 then (if r = 5 then (2 : Int) else 1) else 0)
      (fun _ => [5, 7]) [1, 2])[1]? = some none := by
  have h := bestMatch_resolves_nonzero_maximal
    (fun (k : Nat) (r : Nat) => if k = 1 then (if r = 5 then (2 : Int) else 1) else 0)
    (fun _ => [5, 7]) [1, 2] (by decide)
  exact ⟨h.1, ((h.2 1 2 (by decide)).1).mpr (by decide)⟩

theorem promiseAll_ok {E : Type u} (load : K → Except E V) (f : K → V) :
    ∀ keys : List K, (∀ k ∈ keys, load k = Except.ok (f k)) →
      promiseAll (keys.map load) = Except.ok (keys.map f)
  | [] => fun _ => rfl
  | k :: rest => fun h => by
    simp only [List.map_cons]
    rw [show load k = Except.ok (f k) from h k (List.mem_cons_self _ _)]
    simp only [promiseAll]
    rw [promiseAll_ok load f rest (fun k2 hk2 => h k2 (List.mem_cons_of_mem _ hk2))]
    rfl

theorem promiseAll_error {E : Type u} :
    ∀ (l : List (Except E V)), (∃ x ∈ l, ∃ e, x = Except.error e) →
      ∃ e2, promiseAll l = Except.error e2
  | [] => fun ⟨x, hx, _⟩ => absurd hx (by simp)
  | x :: rest => fun ⟨y, hy, e, hye⟩ => by
    cases x with
    | error e0 => exact ⟨e0, rfl⟩
    | ok w =>
      have hyrest : y ∈ rest := by
        rcases List.mem_cons.mp hy with h | h
        · subst h
          simp at hye
        · exact h
      obtain ⟨e2, he2⟩ := promiseAll_error rest ⟨y, hyrest, e, hye⟩
      refine ⟨e2, ?_⟩
      simp [promiseAll, he2, Except.map]

theorem uniqueBy_subset [DecidableEq K] (f : R → K) :
    ∀ l : List R, ∀ x ∈ uniqueBy f l, x ∈ l
  | [] => by simp [uniqueBy]
  | r :: rest => by
    intro x hx
    rw [uniqueBy] at hx
    rcases List.mem_cons.mp hx with h | h
    · exact List.mem_cons.mpr (Or.inl h)
    · have := uniqueBy_subset f (rest.filter (fun r2 => decide (f r2 ≠ f r))) x h
      exact List.mem_cons_of_mem _ (List.mem_of_mem_filter this)
termination_by l => l.length
decreasing_by
  simp only [List.length_cons]
  exact Nat.lt_succ_of_le (List.length_filter_le _ _)

theorem uniqueBy_covers [DecidableEq K] (f : R → K) :
    ∀ l : List R, ∀ r ∈ l, f r ∈ (uniqueBy f l).map f
  | [] => by simp
  | r0 :: rest => by
    intro r hr
    rw [uniqueBy]
    simp only [List.map_cons, List.mem_cons]
    by_cases heq : f r = f r0
    · exact Or.inl heq
    · rcases List.mem_cons.mp hr with h | h
      · exact absurd (congrArg f h) heq
      · refine Or.inr (uniqueBy_covers f
          (rest.filter (fun r2 => decide (f r2 ≠ f r0))) r ?_)
        exact List.mem_filter.mpr ⟨h, by simpa using heq⟩
termination_by l => l.length
decreasing_by
  simp only [List.length_cons]
  exact Nat.lt_succ_of_le (List.length_filter_le _ _)

theorem uniqueBy_nodup [DecidableEq K] (f : R → K) :
    ∀ l : List R, ((uniqueBy f l).map f).Nodup
  | [] => by simp [uniqueBy]
  | r :: rest => by
    rw [uniqueBy]
    simp only [List.map_cons, List.nodup_cons]
    refine ⟨?_, uniqueBy_nodup f (rest.filter (fun r2 => decide (f r2 ≠ f r)))⟩
    intro hmem
    rcases List.mem_map.mp hmem with ⟨x, hx, hxe⟩
    have hx2 := uniqueBy_subset f _ x hx
    have := List.of_mem_filter hx2
    simp only [decide_eq_true_eq] at this
    exact this hxe
termination_by l => l.length
decreasing_by
  simp only [List.length_cons]
  exact Nat.lt_succ_of_le (List.length_filter_le _ _)

/-- Claim C7: loadMany issues one load per key, and when all loads succeed it
returns, for PrimaryKeyLoader and BestMatchLoader, the per-key results with
undefined dropped; for the many loaders, the flattened concatenation of the
per-key arrays; for ParentDocumentLoader, the non-null results deduplicated by
parentId (the result has pairwise distinct parent ids, is drawn from the
compacted results, and covers every parent id); and each variant rejects
whenever any constituent load rejects. -/
theorem loadMany_aggregates_and_rejects (E : Type u) [DecidableEq K] :
    (∀ (load : K → Except E (Option R)) (f : K → Option R) (keys : List K),
      (∀ k ∈ keys, load k = Except.ok (f k)) →
      loadManyPrimary load keys = Except.ok ((keys.map f).filterMap id)) ∧
    (∀ (load : K → Except E (List R)) (g : K → List R) (keys : List K),
      (∀ k ∈ keys, load k = Except.ok (g k)) →
      loadManyMany load keys = Except.ok ((keys.map g).flatten)) ∧
    (∀ (load : K → Except E (Option R)) (f : K → Option R) (parentId : R → K)
        (keys : List K),
      (∀ k ∈ keys, load k = Except.ok (f k)) →
      loadManyParentDocument load parentId keys
        = Except.ok (uniqueBy parentId ((keys.map f).filterMap id))) ∧
    (∀ (parentId : R → K) (l : List R),
      ((uniqueBy parentId l).map parentId).Nodup ∧
      (∀ r ∈ uniqueBy parentId l, r ∈ l) ∧
      (∀ r ∈ l, parentId r ∈ (uniqueBy parentId l).map parentId)) ∧
    (∀ (load : K → Except E (Option R)) (keys : List K) (k : K) (e : E),
      k ∈ keys → load k = Except.error e →
      ∃ e2, loadManyPrimary load keys = Except.error e2) ∧
    (∀ (load : K → Except E (List R)) (keys : List K) (k : K) (e : E),
      k ∈ keys → load k = Except.error e →
      ∃ e2, loadManyMany load keys = Except.error e2) ∧
    (∀ (load : K → Except E (Option R)) (parentId : R → K) (keys : List K)
        (k : K) (e : E),
      k ∈ keys → load k = Except.error e →
      ∃ e2, loadManyParentDocument load parentId keys = Except.error e2) := by
  refine ⟨?_, ?_, ?_, ?_, ?_, ?_, ?_⟩
  · intro load f keys h
    rw [loadManyPrimary, promiseAll_ok load f keys h]
    rfl
  · intro load g keys h
    rw [loadManyMany, promiseAll_ok load g keys h]
    rfl
  · intro load f parentId keys h
    rw [loadManyParentDocument, promiseAll_ok load f keys h]
    rfl
  · intro parentId l
    exact ⟨uniqueBy_nodup parentId l, uniqueBy_subset parentId l,
      uniqueBy_covers parentId l⟩
  · intro load keys k e hk he
    obtain ⟨e2, he2⟩ := promiseAll_error (keys.map load)
      ⟨load k, List.mem_map_of_mem load hk, e, he⟩
    refine ⟨e2, ?_⟩
    rw [loadManyPrimary, he2]
    rfl
  · intro load keys k e hk he
    obtain ⟨e2, he2⟩ := promiseAll_error (keys.map load)
      ⟨load k, List.mem_map_of_mem load hk, e, he⟩
    refine ⟨e2, ?_⟩
    rw [loadManyMany, he2]
    rfl
  · intro load parentId keys k e hk he
    obtain ⟨e2, he2⟩ := promiseAll_error (keys.map load)
      ⟨load k, List.mem_map_of_mem load hk, e, he⟩
    refine ⟨e2, ?_⟩
    rw [loadManyParentDocument, he2]
    rfl

/-- Witness for claim C7 at concrete inputs: a primary loadMany over keys 1
and 2 where only key 1 has a row returns exactly that row with the undefined
slot dropped, and a many loadMany whose first load rejects rejects as a
whole. -/
theorem loadMany_witness :
    loadManyPrimary (fun n : Nat =>
        (Except.ok (if n = 1 then some n else none) : Except String (Option Nat)))
      [1, 2] = Except.ok [1] ∧
    (∃ e2, loadManyMany (fun n : Nat =>
        if n = 1 then Except.error "boom" else (Except.ok [n] : Except String (List Nat)))
      [1, 2] = Except.error e2) := by
  have h := loadMany_aggregates_and_rejects (K := Nat) (R := Nat) String
  constructor
  · have h1 := h.1 (fun n : Nat => Except.ok (if n = 1 then some n else none))
      (fun n : Nat => if n = 1 then some n else none) [1, 2] (fun _ _ => rfl)
    exact h1.trans (by rfl)
  · exact h.2.2.2.2.2.1 (fun n : Nat =>
      if n = 1 then Except.error "boom" else Except.ok [n]) [1, 2] 1 "boom"
      (by decide) rfl

theorem factoryGetMany_spec (s : FactoryState) (lid : Nat) (fs : String) :
    (∃ eid, factoryLookup s lid fs = some eid ∧ factoryGetMany s lid fs = (eid, s)) ∨
    (factoryLookup s lid fs = none ∧
      factoryGetMany s lid fs
        = (s.nextId, ⟨mapSet s.loaders lid
            (mapSet ((mapGet s.loaders lid).getD []) fs s.nextId), s.nextId + 1⟩)) := by
  cases hg : mapGet ((mapGet s.loaders lid).getD []) fs with
  | some eid =>
    left
    refine ⟨eid, hg, ?_⟩
    simp only [factoryGetMany, hg]
  | none =>
    right
    refine ⟨hg, ?_⟩
    simp only [factoryGetMany, hg]

theorem factoryLookup_getMany_self (s : FactoryState) (lid : Nat) (fs : String) :
    factoryLookup (factoryGetMany s lid fs).2 lid fs
      = some (factoryGetMany s lid fs).1 := by
  rcases factoryGetMany_spec s lid fs with ⟨eid, hl, he⟩ | ⟨hl, he⟩
  · rw [he]
    exact hl
  · rw [he]
    show mapGet ((mapGet (mapSet s.loaders lid _) lid).getD []) fs = _
    rw [mapGet_mapSet_self]
    simp only [Option.getD_some]
    rw [mapGet_mapSet_self]

theorem factoryLookup_getMany_other (s : FactoryState) (lid : Nat) (fs : String)
    (l2 : Nat) (f2 : String) (hne : ¬(l2 = lid ∧ f2 = fs)) :
    factoryLookup (factoryGetMany s lid fs).2 l2 f2 = factoryLookup s l2 f2 := by
  rcases factoryGetMany_spec s lid fs with ⟨eid, hl, he⟩ | ⟨hl, he⟩
  · rw [he]
  · rw [he]
    show mapGet ((mapGet (mapSet s.loaders lid _) l2).getD []) f2
      = mapGet ((mapGet s.loaders l2).getD []) f2
    by_cases hll : l2 = lid
    · subst hll
      rw [mapGet_mapSet_self]
      simp only [Option.getD_some]
      have hf2 : f2 ≠ fs := fun h => hne ⟨rfl, h⟩
      exact mapGet_mapSet_ne _ _ _ _ (fun h => hf2 h.symm)
    · rw [mapGet_mapSet_ne _ _ _ _ (fun h => hll h.symm)]

theorem factoryGetMany_preserves_wf (s : FactoryState) (lid : Nat) (fs : String)
    (hb : ∀ a b e, factoryLookup s a b = some e → e < s.nextId)
    (hinj : ∀ a b c d e, factoryLookup s a b = some e →
      factoryLookup s c d = some e → a = c ∧ b = d) :
    (∀ a b e, factoryLookup (factoryGetMany s lid fs).2 a b = some e →
      e < (factoryGetMany s lid fs).2.nextId) ∧
    (∀ a b c d e, factoryLookup (factoryGetMany s lid fs).2 a b = some e →
      factoryLookup (factoryGetMany s lid fs).2 c d = some e → a = c ∧ b = d) := by
  rcases factoryGetMany_spec s lid fs with ⟨eid, hl, he⟩ | ⟨hl, he⟩
  · rw [he]
    exact ⟨hb, hinj⟩
  · have hself : factoryLookup (factoryGetMany s lid fs).2 lid fs = some s.nextId := by
      have := factoryLookup_getMany_self s lid fs
      rw [he] at this
      rw [he]
      exact this
    have hnext : (factoryGetMany s lid fs).2.nextId = s.nextId + 1 := by
      rw [he]
    constructor
    · intro a b e hx
      rw [hnext]
      by_cases hab : a = lid ∧ b = fs
      · obtain ⟨rfl, rfl⟩ := hab
        rw [hself] at hx
        rw [← Option.some.inj hx]
        exact Nat.lt_succ_self _
      · rw [factoryLookup_getMany_other s lid fs a b hab] at hx
        exact Nat.lt_succ_of_lt (hb a b e hx)
    · intro a b c d e h1 h2
      by_cases hab : a = lid ∧ b = fs
      · obtain ⟨rfl, rfl⟩ := hab
        by_cases hcd : c = a ∧ d = b
        · exact ⟨hcd.1.symm, hcd.2.symm⟩
        · rw [hself] at h1
          rw [factoryLookup_getMany_other s a b c d hcd] at h2
          have := hb c d e h2
          rw [← Option.some.inj h1] at this
          exact absurd this (lt_irrefl _)
      · by_cases hcd : c = lid ∧ d = fs
        · obtain ⟨rfl, rfl⟩ := hcd
          rw [hself] at h2
          rw [factoryLookup_getMany_other s c d a b hab] at h1
          have := hb a b e h1
          rw [← Option.some.inj h2] at this
          exact absurd this (lt_irrefl _)
        · rw [factoryLookup_getMany_other s lid fs a b hab] at h1
          rw [factoryLookup_getMany_other s lid fs c d hcd] at h2
          exact hinj a b c d e h1 h2

theorem runGets_wf :
    ∀ (gs : List (Nat × String)) (s : FactoryState),
      (∀ a b e, factoryLookup s a b = some e → e < s.nextId) →
      (∀ a b c d e, factoryLookup s a b = some e →
        factoryLookup s c d = some e → a = c ∧ b = d) →
      (∀ a b e, factoryLookup (runGets s gs) a b = some e → e < (runGets s gs).nextId) ∧
      (∀ a b c d e, factoryLookup (runGets s gs) a b = some e →
        factoryLookup (runGets s gs) c d = some e → a = c ∧ b = d)
  | [], _ => fun hb hinj => ⟨hb, hinj⟩
  | (lid, fs) :: rest, s => fun hb hinj => by
    obtain ⟨hb2, hinj2⟩ := factoryGetMany_preserves_wf s lid fs hb hinj
    exact runGets_wf rest (factoryGetMany s lid fs).2 hb2 hinj2

/-- Claim C6: within one factory session, after any sequence of get calls,
performing a get for loader l1 with stringified filter f1 and then a get for
loader l2 with stringified filter f2 yields the identical executor exactly
when the loader and the stringified filter agree; distinct loader or filter
always means a distinct executor (hence a distinct batch queue and cache map),
and a repeated get with the same loader and filter returns the memoized
executor. -/
theorem filter_scoping_distinct_executors
    (gs : List (Nat × String)) (l1 : Nat) (f1 : String) (l2 : Nat) (f2 : String) :
    ((factoryGetMany (runGets FactoryState.empty gs) l1 f1).1
      = (factoryGetMany ((factoryGetMany (runGets FactoryState.empty gs) l1 f1).2) l2 f2).1)
    ↔ (l1 = l2 ∧ f1 = f2) := by
  obtain ⟨hb, hinj⟩ := runGets_wf gs FactoryState.empty
    (by
      intro a b e hx
      simp [factoryLookup, FactoryState.empty, mapGet] at hx)
    (by
      intro a b c d e h1 h2
      simp [factoryLookup, FactoryState.empty, mapGet] at h1)
  obtain ⟨hb1, hinj1⟩ := factoryGetMany_preserves_wf (runGets FactoryState.empty gs)
    l1 f1 hb hinj
  have hself := factoryLookup_getMany_self (runGets FactoryState.empty gs) l1 f1
  constructor
  · intro heq
    rcases factoryGetMany_spec
        ((factoryGetMany (runGets FactoryState.empty gs) l1 f1).2) l2 f2 with
      ⟨eid, hl, he⟩ | ⟨hl, he⟩
    · have hid2 : (factoryGetMany
          ((factoryGetMany (runGets FactoryState.empty gs) l1 f1).2) l2 f2).1 = eid := by
        rw [he]
      rw [hid2] at heq
      have hl1 : factoryLookup ((factoryGetMany (runGets FactoryState.empty gs) l1 f1).2)
          l2 f2 = some ((factoryGetMany (runGets FactoryState.empty gs) l1 f1).1) := by
        rw [hl, heq]
      exact hinj1 l1 f1 l2 f2 _ hself hl1
    · have hid2 : (factoryGetMany
          ((factoryGetMany (runGets FactoryState.empty gs) l1 f1).2) l2 f2).1
          = ((factoryGetMany (runGets FactoryState.empty gs) l1 f1).2).nextId := by
        rw [he]
      have hlt := hb1 l1 f1 _ hself
      rw [heq, hid2] at hlt
      exact absurd hlt (lt_irrefl _)
  · rintro ⟨rfl, rfl⟩
    rcases factoryGetMany_spec
        ((factoryGetMany (runGets FactoryState.empty gs) l1 f1).2) l1 f1 with
      ⟨eid, hl, he⟩ | ⟨hl, he⟩
    · rw [he]
      exact Option.some.inj (hself.symm.trans hl)
    · rw [hself] at hl
      exact absurd hl (by simp)

end DLF
